import Mathlib

/-!
Verification development for the RocketData scraping pipeline
(`sсrap_rocket.py`).  The Python source is shallowly embedded: the
schedule-compression algorithm of `KFCScrapper`, the `clear_data`
normalization steps of the three adapters, the geocoding fallback of
`MonomahScrapper`, and the `ScrapperFacade.parse` pipeline runner with its
exception taxonomy.  Python dicts with insertion order are modelled as
association lists, raised exceptions as `Except` errors, and the output
file as an `Option` holding the file contents.
-/

/-- One per-day schedule entry of the KFC source: the raw dict carries
`timeFrom` and `timeTill` strings; the `day` field records which weekday
the entry is for (the Python code never reads it). -/
structure DayInterval where
  day : String
  timeFrom : String
  timeTill : String
deriving DecidableEq, Repr

namespace KFCScrapper

/-- The canonical weekday list `days` of `_get_time_str`. -/
def days : List String := ["пн", "вт", "ср", "чт", "пт", "сб", "вс"]

/-- The f-string of `_get_time_str`: time strings truncated to five
characters, `timeFrom[:5] + "-" + timeTill[:5]`. -/
def timeStrOf (d : DayInterval) : String :=
  d.timeFrom.take 5 ++ "-" ++ d.timeTill.take 5

/-- Insertion into a Python dict modelled as an association list: an
existing key keeps its position and gets the new value (last write wins);
a fresh key is appended at the end. -/
def upsert : List (String × String) → String → String → List (String × String)
  | [], k, v => [(k, v)]
  | (k', v') :: rest, k, v =>
      if k' = k then (k', v) :: rest else (k', v') :: upsert rest k v

/-- The dict `days_time_map = dict(zip(time, days))` of `_get_time_str`:
time strings are the keys, canonical weekdays (by position) the values. -/
def days_time_map (time_dict : List DayInterval) : List (String × String) :=
  ((time_dict.map timeStrOf).zip days).foldl (fun m p => upsert m p.1 p.2) []

/-- The loop-footer update of `begin` in `_get_time_str`:
`begin_index = days.index(end) + 1; if begin_index != len(days): begin = days[begin_index]`. -/
def nextBegin (endDay b : String) : String :=
  let begin_index := days.indexOf endDay + 1
  if begin_index ≠ days.length then days.getD begin_index b else b

/-- The emitting loop of `_get_time_str`, rendering one
`f"{begin}-{end} " + time` string per dict entry. -/
def walk : String → List (String × String) → List String
  | _, [] => []
  | b, (t, endDay) :: rest => (b ++ "-" ++ endDay ++ " " ++ t) :: walk (nextBegin endDay b) rest

/-- `KFCScrapper._get_time_str`. -/
def _get_time_str (time_dict : List DayInterval) : List String :=
  walk (days.headD "") (days_time_map time_dict)

/-- `KFCScrapper._get_working_hours`: the empty schedule yields the
closed sentinel `["Closed"]`, otherwise `_get_time_str` runs. -/
def _get_working_hours (time_dict : List DayInterval) : List String :=
  if time_dict.isEmpty then ["Closed"] else _get_time_str time_dict

/-- Structured companion of `walk`: the same traversal, but emitting the
`(begin, end, time)` triple instead of the rendered string. -/
def walkR : String → List (String × String) → List (String × String × String)
  | _, [] => []
  | b, (t, endDay) :: rest => (b, endDay, t) :: walkR (nextBegin endDay b) rest

/-- Structured companion of `_get_time_str`, returning the compressed
ranges as `(begin, end, time)` triples. -/
def _get_time_ranges (time_dict : List DayInterval) : List (String × String × String) :=
  walkR (days.headD "") (days_time_map time_dict)

/-- Rendering a structured range reproduces the f-string of the source. -/
def renderRange (r : String × String × String) : String :=
  r.1 ++ "-" ++ r.2.1 ++ " " ++ r.2.2

theorem walk_eq_map_render (b : String) (l : List (String × String)) :
    walk b l = (walkR b l).map renderRange := by
  induction l generalizing b with
  | nil => rfl
  | cons p rest ih => cases p; simp [walk, walkR, renderRange, ih]

end KFCScrapper

/-! ### Spec-side definitions: re-expansion of compressed ranges -/

namespace ScheduleSpec

open KFCScrapper

/-- Modelled from the spec (section 3, CompressedRange invariant): a range
`(begin, end, time)` expands to the canonical weekdays from `begin` through
`end` inclusive, each mapped to the range's time string. -/
def expandRange (r : String × String × String) : List (String × String) :=
  let ib := days.indexOf r.1
  let ie := days.indexOf r.2.1
  ((days.drop ib).take (ie + 1 - ib)).map (fun d => (d, r.2.2))

/-- Modelled from the spec: re-expanding a sequence of compressed ranges
into a per-day mapping. -/
def expandRanges (rs : List (String × String × String)) : List (String × String) :=
  rs.flatMap expandRange

/-- The per-day `(day, time-string)` mapping of a DayInterval sequence. -/
def dayTimeMapping (xs : List DayInterval) : List (String × String) :=
  xs.map (fun d => (d.day, timeStrOf d))

end ScheduleSpec

/-! ### Claims C4, C5, C6 -/

/-- Claim C4 counterexample: the single-day input with day label `ср`
(day3) and times 08:00/08:00 does not yield a range repeating the
interval's own day label; the compressor ignores the day field and uses
the first canonical day `пн` on both sides. -/
theorem c4_counterexample :
    KFCScrapper._get_time_str [⟨"ср", "08:00", "08:00"⟩] ≠ ["ср-ср 08:00-08:00"] ∧
    KFCScrapper._get_time_str [⟨"ср", "08:00", "08:00"⟩] = ["пн-пн 08:00-08:00"] := by
  refine ⟨?_, by decide⟩
  decide

/-- Claim C4 (amended): for a single-day schedule input the compressor
emits one range repeating the FIRST canonical day label `пн` on both
sides, regardless of the interval's own day label; the times are the
input's times truncated to five characters. -/
theorem c4_single_day (day timeFrom timeTill : String) :
    KFCScrapper._get_time_str [⟨day, timeFrom, timeTill⟩] =
      ["пн-пн " ++ (timeFrom.take 5 ++ "-" ++ timeTill.take 5)] := rfl

/-- Claim C5 (confirmed): the 7-day canonical-order input with
09:00-18:00 on days 1-5 (пн..пт) and 10:00-15:00 on days 6-7 (сб, вс)
compresses to exactly the two ranges `пн-пт 09:00-18:00` and
`сб-вс 10:00-15:00`. -/
theorem c5_seven_day_example :
    KFCScrapper._get_time_str
      [⟨"пн", "09:00", "18:00"⟩, ⟨"вт", "09:00", "18:00"⟩, ⟨"ср", "09:00", "18:00"⟩,
       ⟨"чт", "09:00", "18:00"⟩, ⟨"пт", "09:00", "18:00"⟩, ⟨"сб", "10:00", "15:00"⟩,
       ⟨"вс", "10:00", "15:00"⟩] =
      ["пн-пт 09:00-18:00", "сб-вс 10:00-15:00"] := by decide

/-- Claim C6 (confirmed): the compressor on an empty interval sequence
returns exactly the one-element list holding the closed sentinel, which
the source realizes as the string "Closed". -/
theorem c6_empty_schedule : KFCScrapper._get_working_hours [] = ["Closed"] := rfl

/-! ### Helper notions shared by several claims -/

/-- Keys of a Python dict modelled as an association list. -/
def keysOf {α : Type} (m : List (String × α)) : List String := m.map Prod.fst

namespace KFCScrapper

theorem keysOf_append_single (m : List (String × String)) (u w : String) :
    keysOf (m ++ [(u, w)]) = keysOf m ++ [u] := by
  simp [keysOf]

theorem upsert_fresh (m : List (String × String)) (k v : String) (hk : k ∉ keysOf m) :
    upsert m k v = m ++ [(k, v)] := by
  induction m with
  | nil => rfl
  | cons p rest ih =>
      have hne : p.1 ≠ k := by
        intro h
        exact hk (by simp [keysOf, h])
      have hk' : k ∉ keysOf rest := by
        intro h
        exact hk (by simp [keysOf] at h ⊢; exact Or.inr h)
      cases p
      simp only [upsert, if_neg hne, List.cons_append, ih hk']

theorem upsert_update (m : List (String × String)) (k v w : String) (hk : k ∉ keysOf m) :
    upsert (m ++ [(k, v)]) k w = m ++ [(k, w)] := by
  induction m with
  | nil => simp [upsert]
  | cons p rest ih =>
      have hne : p.1 ≠ k := by
        intro h
        exact hk (by simp [keysOf, h])
      have hk' : k ∉ keysOf rest := by
        intro h
        exact hk (by simp [keysOf] at h ⊢; exact Or.inr h)
      cases p
      simp only [List.cons_append, upsert, if_neg hne, List.append_eq, ih hk']

theorem fold_run_update (l : List String) (m : List (String × String)) (u w : String)
    (hu : u ∉ keysOf m) :
    List.foldl (fun m p => upsert m p.1 p.2) (m ++ [(u, w)]) (l.map fun d => (u, d)) =
      m ++ [(u, l.getLastD w)] := by
  induction l generalizing w with
  | nil => rfl
  | cons d rest ih =>
      simp only [List.map_cons, List.foldl_cons]
      rw [upsert_update m u w d hu, ih d, List.getLastD_cons]

theorem fold_run (l : List String) (m : List (String × String)) (u : String)
    (hl : l ≠ []) (hu : u ∉ keysOf m) :
    List.foldl (fun m p => upsert m p.1 p.2) m (l.map fun d => (u, d)) =
      m ++ [(u, l.getLastD "")] := by
  cases l with
  | nil => exact absurd rfl hl
  | cons d rest =>
      simp only [List.map_cons, List.foldl_cons]
      rw [upsert_fresh m u d hu, fold_run_update rest m u d hu, List.getLastD_cons]

theorem zip_append_take {α β : Type} (a b : List α) (ds : List β) :
    (a ++ b).zip ds = a.zip (ds.take a.length) ++ b.zip (ds.drop a.length) := by
  induction a generalizing ds with
  | nil => simp
  | cons x xs ih =>
      cases ds with
      | nil => simp
      | cons d ds' => simp [List.zip_cons_cons, ih ds']

theorem zip_replicate (c : Nat) (u : String) (ds : List String) :
    (List.replicate c u).zip ds = (ds.take c).map fun d => (u, d) := by
  induction c generalizing ds with
  | zero => simp
  | succ n ih =>
      cases ds with
      | nil => simp
      | cons d ds' => simp [List.replicate_succ, List.zip_cons_cons, ih ds']

end KFCScrapper

namespace ScheduleSpec

open KFCScrapper

/-- A run of consecutive canonical days sharing one `(timeFrom, timeTill)`
pair; the building block of the amended round-trip statement. -/
structure Grp where
  timeFrom : String
  timeTill : String
  count : Nat
deriving DecidableEq, Repr

/-- The rendered time string of a group, exactly as `timeStrOf` renders
each of its days. -/
def render (g : Grp) : String := g.timeFrom.take 5 ++ "-" ++ g.timeTill.take 5

/-- Build a DayInterval sequence from runs, assigning day labels from the
given day list positionally. -/
def mkGroups : List Grp → List String → List DayInterval
  | [], _ => []
  | g :: gs, ds =>
      ((ds.take g.count).map fun d => ⟨d, g.timeFrom, g.timeTill⟩) ++ mkGroups gs (ds.drop g.count)

/-- A grouped input over the canonical weekday list: day labels are the
canonical weekdays in positional order. -/
def mkInput (gs : List Grp) : List DayInterval := mkGroups gs days

/-- Total number of days covered by a list of runs. -/
def total (gs : List Grp) : Nat := (gs.map Grp.count).sum

/-- The association list the compressor's dict reaches on a grouped
input: each run's rendered time mapped to the run's last day label. -/
def groupMap : List Grp → List String → List (String × String)
  | [], _ => []
  | g :: gs, ds => (render g, (ds.take g.count).getLastD "") :: groupMap gs (ds.drop g.count)

/-- The flat list of per-day rendered time strings of a grouped input. -/
def groupTimes (gs : List Grp) : List String :=
  gs.flatMap fun g => List.replicate g.count (render g)

theorem total_cons (g : Grp) (gs : List Grp) : total (g :: gs) = g.count + total gs := by
  simp [total]

theorem total_pos (gs : List Grp) (h : gs ≠ []) (hc : ∀ g ∈ gs, 1 ≤ g.count) :
    1 ≤ total gs := by
  cases gs with
  | nil => exact absurd rfl h
  | cons g gs' =>
      have := hc g (by simp)
      rw [total_cons]
      omega

theorem mkGroups_map_timeStrOf (gs : List Grp) (ds : List String)
    (h : total gs ≤ ds.length) : (mkGroups gs ds).map timeStrOf = groupTimes gs := by
  induction gs generalizing ds with
  | nil => simp [mkGroups, groupTimes]
  | cons g gs' ih =>
      have hc : g.count ≤ ds.length := by
        have := total_cons g gs' ▸ h
        omega
      have hlen : (ds.take g.count).length = g.count := by
        simp [List.length_take, Nat.min_eq_left hc]
      have hrest : total gs' ≤ (ds.drop g.count).length := by
        rw [List.length_drop]
        have := total_cons g gs' ▸ h
        omega
      simp only [mkGroups, groupTimes, List.map_append, List.flatMap_cons, ih _ hrest]
      congr 1
      · rw [List.map_map]
        have : (timeStrOf ∘ fun d => DayInterval.mk d g.timeFrom g.timeTill) =
            fun _ => render g := rfl
        rw [this, List.map_const', hlen]

theorem fold_groups (gs : List Grp) (ds : List String) (m : List (String × String))
    (hlen : total gs ≤ ds.length) (hc : ∀ g ∈ gs, 1 ≤ g.count)
    (hnd : (gs.map render).Nodup) (hfresh : ∀ u ∈ gs.map render, u ∉ keysOf m) :
    List.foldl (fun m p => upsert m p.1 p.2) m ((groupTimes gs).zip ds) =
      m ++ groupMap gs ds := by
  induction gs generalizing ds m with
  | nil => simp [groupTimes, groupMap]
  | cons g gs' ih =>
      have hcg : 1 ≤ g.count := hc g (by simp)
      have htot : g.count + total gs' ≤ ds.length := total_cons g gs' ▸ hlen
      have htake_ne : ds.take g.count ≠ [] := by
        apply List.ne_nil_of_length_pos
        rw [List.length_take]
        omega
      have hni : render g ∉ gs'.map render := (List.nodup_cons.mp (by simpa using hnd)).1
      have hnd' : (gs'.map render).Nodup := (List.nodup_cons.mp (by simpa using hnd)).2
      have hfg : render g ∉ keysOf m := hfresh (render g) (by simp)
      have hstep : groupTimes (g :: gs') =
          List.replicate g.count (render g) ++ groupTimes gs' := by
        simp [groupTimes]
      rw [hstep, zip_append_take, List.length_replicate, zip_replicate, List.take_take,
        Nat.min_self, List.foldl_append,
        fold_run (ds.take g.count) m (render g) htake_ne hfg]
      have hfresh' : ∀ u ∈ gs'.map render,
          u ∉ keysOf (m ++ [(render g, (ds.take g.count).getLastD "")]) := by
        intro u hu
        rw [keysOf_append_single]
        simp only [List.mem_append, List.mem_singleton]
        rintro (h | h)
        · exact hfresh u (by simp [hu]) h
        · exact hni (h ▸ hu)
      have hlen' : total gs' ≤ (ds.drop g.count).length := by
        rw [List.length_drop]
        omega
      rw [ih (ds.drop g.count) _ hlen' (fun x hx => hc x (by simp [hx])) hnd' hfresh']
      simp [groupMap]

theorem getD_congr (l : List String) :
    ∀ (i : Nat) (x y : String), i < l.length → l.getD i x = l.getD i y := by
  induction l with
  | nil => intro i x y h; simp at h
  | cons a rest ih =>
      intro i x y h
      cases i with
      | zero => rfl
      | succ n =>
          simp only [List.getD_cons_succ]
          exact ih n x y (by simpa using h)

theorem days_indexOf_getD : ∀ i, i < 7 → days.indexOf (days.getD i "") = i := by decide

theorem days_getLastD_take_drop : ∀ o, o < 8 → ∀ c, c < 8 → 1 ≤ c → o + c ≤ 7 →
    ((days.drop o).take c).getLastD "" = days.getD (o + c - 1) "" := by decide

theorem walk_expand (gs : List ScheduleSpec.Grp) :
    ∀ (o : Nat), o + ScheduleSpec.total gs ≤ 7 → (∀ g ∈ gs, 1 ≤ g.count) →
    ScheduleSpec.expandRanges (walkR (days.getD o "") (ScheduleSpec.groupMap gs (days.drop o))) =
      ScheduleSpec.dayTimeMapping (ScheduleSpec.mkGroups gs (days.drop o)) := by
  induction gs with
  | nil =>
      intro o _ _
      simp [ScheduleSpec.groupMap, ScheduleSpec.mkGroups, walkR, ScheduleSpec.expandRanges,
        ScheduleSpec.dayTimeMapping]
  | cons g gs' ih =>
      intro o ho hc
      have hcg : 1 ≤ g.count := hc g (by simp)
      have htot : o + (g.count + ScheduleSpec.total gs') ≤ 7 := by
        rw [← ScheduleSpec.total_cons]; exact ho
      have ho7 : o < 7 := by omega
      have hoc7 : o + g.count ≤ 7 := by omega
      have hL : ((days.drop o).take g.count).getLastD "" = days.getD (o + g.count - 1) "" :=
        days_getLastD_take_drop o (by omega) g.count (by omega) hcg (by omega)
      have hib : days.indexOf (days.getD o "") = o := days_indexOf_getD o ho7
      have hie : days.indexOf (days.getD (o + g.count - 1) "") = o + g.count - 1 :=
        days_indexOf_getD (o + g.count - 1) (by omega)
      have hdrop : (days.drop o).drop g.count = days.drop (o + g.count) := by
        rw [List.drop_drop, Nat.add_comm]
      have hcount : o + g.count - 1 + 1 - o = g.count := by omega
      rw [show ScheduleSpec.groupMap (g :: gs') (days.drop o) =
        (ScheduleSpec.render g, ((days.drop o).take g.count).getLastD "") ::
          ScheduleSpec.groupMap gs' ((days.drop o).drop g.count) from rfl]
      rw [show ∀ b p rest, walkR b (p :: rest) = (b, p.2, p.1) :: walkR (nextBegin p.2 b) rest
        from fun _ _ _ => rfl]
      rw [show ∀ r rs, ScheduleSpec.expandRanges (r :: rs) =
        ScheduleSpec.expandRange r ++ ScheduleSpec.expandRanges rs from fun _ _ => rfl]
      have hexp : ScheduleSpec.expandRange
          (days.getD o "", ((days.drop o).take g.count).getLastD "", ScheduleSpec.render g) =
          ((days.drop o).take g.count).map (fun d => (d, ScheduleSpec.render g)) := by
        rw [ScheduleSpec.expandRange, hL]
        simp only [hib, hie]
        rw [hcount]
      rw [hexp]
      rw [show ScheduleSpec.mkGroups (g :: gs') (days.drop o) =
        (((days.drop o).take g.count).map fun d => DayInterval.mk d g.timeFrom g.timeTill) ++
          ScheduleSpec.mkGroups gs' ((days.drop o).drop g.count) from rfl]
      rw [show ∀ a b, ScheduleSpec.dayTimeMapping (a ++ b) =
        ScheduleSpec.dayTimeMapping a ++ ScheduleSpec.dayTimeMapping b from by
          intro a b; simp [ScheduleSpec.dayTimeMapping]]
      congr 1
      · simp [ScheduleSpec.dayTimeMapping, List.map_map]
        rfl
      · rw [hdrop]
        cases hgs' : gs' with
        | nil =>
            simp [ScheduleSpec.groupMap, ScheduleSpec.mkGroups, walkR,
              ScheduleSpec.expandRanges, ScheduleSpec.dayTimeMapping]
        | cons g2 gs'' =>
            have htpos : 1 ≤ ScheduleSpec.total gs' := by
              apply ScheduleSpec.total_pos gs' (by rw [hgs']; simp)
              intro x hx
              exact hc x (by simp [hx])
            have hlt7 : o + g.count < 7 := by omega
            have hnb : nextBegin (((days.drop o).take g.count).getLastD "") (days.getD o "") =
                days.getD (o + g.count) "" := by
              rw [nextBegin, hL]
              simp only [hie]
              have h1 : o + g.count - 1 + 1 = o + g.count := by omega
              rw [h1]
              have h2 : o + g.count ≠ days.length := by
                rw [show days.length = 7 from rfl]; omega
              simp only [if_pos h2]
              exact getD_congr days (o + g.count) _ ""
                (by rw [show days.length = 7 from rfl]; omega)
            rw [← hgs', hnb]
            exact ih (o + g.count) (by omega) (fun x hx => hc x (by simp [hx]))

end ScheduleSpec

/-! ### Claim C2 -/

/-- Claim C2 counterexample: the three-day canonical-order input
пн 08:00-09:00, вт 10:00-11:00, ср 08:00-09:00 (equal time strings on the
two non-contiguous days пн and ср) does not survive the round trip: the
dict keyed by time strings collapses the two runs, the emitted range
пн-ср 08:00-09:00 covers вт with the wrong hours, and the вт interval
10:00-11:00 is lost. -/
theorem c2_counterexample :
    ScheduleSpec.expandRanges (KFCScrapper._get_time_ranges
      [⟨"пн", "08:00", "09:00"⟩, ⟨"вт", "10:00", "11:00"⟩, ⟨"ср", "08:00", "09:00"⟩]) ≠
    ScheduleSpec.dayTimeMapping
      [⟨"пн", "08:00", "09:00"⟩, ⟨"вт", "10:00", "11:00"⟩, ⟨"ср", "08:00", "09:00"⟩] := by
  decide

/-- Claim C2 (amended): for every non-empty DayInterval sequence of at
most seven entries whose day labels are the canonical weekdays in
positional order and in which equal time strings occur only in one
contiguous run (the sequence is a concatenation of runs with pairwise
distinct rendered time strings, each run non-empty), re-expanding the
compressor's output reproduces exactly the input's per-day
(day, time-string) mapping, with no day omitted or duplicated. -/
theorem c2_roundtrip (gs : List ScheduleSpec.Grp) (hne : gs ≠ [])
    (hc : ∀ g ∈ gs, 1 ≤ g.count) (htot : ScheduleSpec.total gs ≤ 7)
    (hnd : (gs.map ScheduleSpec.render).Nodup) :
    ScheduleSpec.expandRanges (KFCScrapper._get_time_ranges (ScheduleSpec.mkInput gs)) =
      ScheduleSpec.dayTimeMapping (ScheduleSpec.mkInput gs) := by
  have hlen : ScheduleSpec.total gs ≤ KFCScrapper.days.length := htot
  have hmap : KFCScrapper.days_time_map (ScheduleSpec.mkInput gs) =
      ScheduleSpec.groupMap gs KFCScrapper.days := by
    rw [KFCScrapper.days_time_map]
    simp only [ScheduleSpec.mkInput]
    rw [ScheduleSpec.mkGroups_map_timeStrOf gs KFCScrapper.days hlen]
    have := ScheduleSpec.fold_groups gs KFCScrapper.days [] hlen hc hnd
      (by intro u _; simp [keysOf])
    simpa using this
  rw [KFCScrapper._get_time_ranges, hmap]
  rw [show KFCScrapper.days.headD "" = KFCScrapper.days.getD 0 "" from rfl]
  rw [show ScheduleSpec.groupMap gs KFCScrapper.days =
    ScheduleSpec.groupMap gs (KFCScrapper.days.drop 0) from rfl]
  rw [show ScheduleSpec.mkInput gs = ScheduleSpec.mkGroups gs (KFCScrapper.days.drop 0) from rfl]
  exact ScheduleSpec.walk_expand gs 0 (by simpa using htot) hc

/-- Claim C2 witness: the round trip at the concrete grouped input
09:00-18:00 for five days followed by 10:00-15:00 for two days. -/
theorem c2_roundtrip_witness :
    ScheduleSpec.expandRanges (KFCScrapper._get_time_ranges (ScheduleSpec.mkInput
      [⟨"09:00", "18:00", 5⟩, ⟨"10:00", "15:00", 2⟩])) =
    ScheduleSpec.dayTimeMapping (ScheduleSpec.mkInput
      [⟨"09:00", "18:00", 5⟩, ⟨"10:00", "15:00", 2⟩]) :=
  c2_roundtrip [⟨"09:00", "18:00", 5⟩, ⟨"10:00", "15:00", 2⟩]
    (by decide) (by decide) (by decide) (by decide)

/-! ### Claim C9 -/

/-- The (timeFrom, timeTill) projection of a schedule entry: the only data
of an entry the compressor ever reads. -/
def ScheduleSpec.timesProj (d : DayInterval) : String × String := (d.timeFrom, d.timeTill)

theorem KFCScrapper.get_time_str_times_only (xs ys : List DayInterval)
    (h : xs.map ScheduleSpec.timesProj = ys.map ScheduleSpec.timesProj) :
    KFCScrapper._get_time_str xs = KFCScrapper._get_time_str ys := by
  have hx : xs.map KFCScrapper.timeStrOf =
      (xs.map ScheduleSpec.timesProj).map (fun p => p.1.take 5 ++ "-" ++ p.2.take 5) := by
    rw [List.map_map]; rfl
  have hy : ys.map KFCScrapper.timeStrOf =
      (ys.map ScheduleSpec.timesProj).map (fun p => p.1.take 5 ++ "-" ++ p.2.take 5) := by
    rw [List.map_map]; rfl
  have ht : xs.map KFCScrapper.timeStrOf = ys.map KFCScrapper.timeStrOf := by
    rw [hx, hy, h]
  rw [KFCScrapper._get_time_str, KFCScrapper._get_time_str,
    KFCScrapper.days_time_map, KFCScrapper.days_time_map, ht]

theorem KFCScrapper.getD_mem_or {α : Type} (l : List α) :
    ∀ (n : Nat) (d : α), l.getD n d ∈ l ∨ l.getD n d = d := by
  induction l with
  | nil => intro n d; right; cases n <;> rfl
  | cons a rest ih =>
      intro n d
      cases n with
      | zero => left; simp
      | succ k =>
          rcases ih k d with h | h
          · left; simp only [List.getD_cons_succ]; exact List.mem_cons_of_mem a h
          · right; simpa using h

theorem KFCScrapper.nextBegin_mem (endDay b : String) (hb : b ∈ KFCScrapper.days) :
    KFCScrapper.nextBegin endDay b ∈ KFCScrapper.days := by
  rw [KFCScrapper.nextBegin]
  split
  · rcases KFCScrapper.getD_mem_or KFCScrapper.days (KFCScrapper.days.indexOf endDay + 1) b
      with h | h
    · exact h
    · rw [h]; exact hb
  · exact hb

theorem KFCScrapper.upsert_mem (m : List (String × String)) (k v : String)
    (p : String × String) (hp : p ∈ KFCScrapper.upsert m k v) : p ∈ m ∨ p = (k, v) := by
  induction m with
  | nil => right; simpa [KFCScrapper.upsert] using hp
  | cons q rest ih =>
      cases q with
      | mk k1 v1 =>
          by_cases hk : k1 = k
          · subst hk
            simp only [KFCScrapper.upsert, if_pos rfl] at hp
            cases hp with
            | head => right; rfl
            | tail _ h => left; exact List.mem_cons_of_mem _ h
          · simp only [KFCScrapper.upsert, if_neg hk] at hp
            cases hp with
            | head => left; simp
            | tail _ h =>
                rcases ih h with h2 | h2
                · left; exact List.mem_cons_of_mem _ h2
                · right; exact h2

theorem KFCScrapper.fold_mem (l : List (String × String)) :
    ∀ (m : List (String × String)) (p : String × String),
      p ∈ List.foldl (fun m q => KFCScrapper.upsert m q.1 q.2) m l → p ∈ m ∨ p ∈ l := by
  induction l with
  | nil => intro m p hp; left; exact hp
  | cons q rest ih =>
      intro m p hp
      simp only [List.foldl_cons] at hp
      rcases ih (KFCScrapper.upsert m q.1 q.2) p hp with h | h
      · rcases KFCScrapper.upsert_mem m q.1 q.2 p h with h2 | h2
        · left; exact h2
        · right; rw [h2]; simp
      · right; exact List.mem_cons_of_mem _ h

theorem KFCScrapper.walkR_mem (m : List (String × String)) :
    ∀ (b : String), b ∈ KFCScrapper.days →
      ∀ r ∈ KFCScrapper.walkR b m, r.1 ∈ KFCScrapper.days ∧ (r.2.2, r.2.1) ∈ m := by
  induction m with
  | nil => intro b _ r hr; simp [KFCScrapper.walkR] at hr
  | cons q rest ih =>
      intro b hb r hr
      cases q with
      | mk t endDay =>
          simp only [KFCScrapper.walkR, List.mem_cons] at hr
          rcases hr with h | h
          · rw [h]; exact ⟨hb, by simp⟩
          · obtain ⟨h1, h2⟩ :=
              ih (KFCScrapper.nextBegin endDay b) (KFCScrapper.nextBegin_mem endDay b hb) r h
            exact ⟨h1, List.mem_cons_of_mem _ h2⟩

/-- Claim C9 (confirmed): the compressor's output depends only on the
ordered sequence of (timeFrom, timeTill) values — two non-empty inputs
with identical time projections give identical outputs whatever their day
fields hold — and the day labels appearing in the output come from the
canonical weekday list by position: the rendered output is exactly the
rendered range triples, every range's begin label is a canonical weekday,
and every range's end label is the i-th canonical weekday for a position
i whose entry (the i-th input entry) carries exactly that range's time
string. -/
theorem c9_times_only (xs ys : List DayInterval) (hx : xs ≠ []) (hy : ys ≠ [])
    (h : xs.map ScheduleSpec.timesProj = ys.map ScheduleSpec.timesProj) :
    KFCScrapper._get_time_str xs = KFCScrapper._get_time_str ys ∧
    KFCScrapper._get_time_str xs =
      (KFCScrapper._get_time_ranges xs).map KFCScrapper.renderRange ∧
    ∀ r ∈ KFCScrapper._get_time_ranges xs,
      r.1 ∈ KFCScrapper.days ∧
      ∃ (i : Nat) (hix : i < xs.length) (hid : i < KFCScrapper.days.length),
        r.2.1 = KFCScrapper.days.get ⟨i, hid⟩ ∧
        r.2.2 = KFCScrapper.timeStrOf (xs.get ⟨i, hix⟩) := by
  refine ⟨KFCScrapper.get_time_str_times_only xs ys h,
    KFCScrapper.walk_eq_map_render _ _, ?_⟩
  intro r hr
  obtain ⟨hb, hte⟩ :=
    KFCScrapper.walkR_mem (KFCScrapper.days_time_map xs) (KFCScrapper.days.headD "")
      (by decide) r hr
  refine ⟨hb, ?_⟩
  have hzip : (r.2.2, r.2.1) ∈ (xs.map KFCScrapper.timeStrOf).zip KFCScrapper.days := by
    rcases KFCScrapper.fold_mem ((xs.map KFCScrapper.timeStrOf).zip KFCScrapper.days) []
      (r.2.2, r.2.1) hte with h0 | h0
    · simp at h0
    · exact h0
  rw [List.mem_iff_getElem] at hzip
  obtain ⟨i, hilen, hi⟩ := hzip
  have hix : i < xs.length := by
    rw [List.length_zip, List.length_map] at hilen
    omega
  have hid : i < KFCScrapper.days.length := by
    rw [List.length_zip, List.length_map] at hilen
    omega
  have hmx : i < (xs.map KFCScrapper.timeStrOf).length := by
    rw [List.length_map]; exact hix
  rw [List.getElem_zip] at hi
  have hi2 := Prod.mk.inj hi
  refine ⟨i, hix, hid, ?_, ?_⟩
  · rw [List.get_eq_getElem]
    exact hi2.2.symm
  · rw [List.get_eq_getElem, ← hi2.1]
    simp

/-- Claim C9 witness: two single-entry inputs carrying different day
labels (сб versus пн) but the same times produce the same output, and
the output label facts hold at the first of them. -/
theorem c9_times_only_witness :
    KFCScrapper._get_time_str [⟨"сб", "09:00", "18:00"⟩] =
      KFCScrapper._get_time_str [⟨"пн", "09:00", "18:00"⟩] ∧
    KFCScrapper._get_time_str [⟨"сб", "09:00", "18:00"⟩] =
      (KFCScrapper._get_time_ranges [⟨"сб", "09:00", "18:00"⟩]).map KFCScrapper.renderRange ∧
    ∀ r ∈ KFCScrapper._get_time_ranges [⟨"сб", "09:00", "18:00"⟩],
      r.1 ∈ KFCScrapper.days ∧
      ∃ (i : Nat) (hix : i < ([⟨"сб", "09:00", "18:00"⟩] : List DayInterval).length)
        (hid : i < KFCScrapper.days.length),
        r.2.1 = KFCScrapper.days.get ⟨i, hid⟩ ∧
        r.2.2 = KFCScrapper.timeStrOf
          (([⟨"сб", "09:00", "18:00"⟩] : List DayInterval).get ⟨i, hix⟩) :=
  c9_times_only [⟨"сб", "09:00", "18:00"⟩] [⟨"пн", "09:00", "18:00"⟩]
    (by simp) (by simp) rfl

/-! ### Claim C10 -/

theorem KFCScrapper.walk_length (l : List (String × String)) :
    ∀ b : String, (KFCScrapper.walk b l).length = l.length := by
  induction l with
  | nil => intro b; rfl
  | cons p rest ih =>
      intro b
      cases p
      simp [KFCScrapper.walk, ih]

theorem KFCScrapper.upsert_keys (m : List (String × String)) (k v : String) :
    keysOf (KFCScrapper.upsert m k v) =
      if k ∈ keysOf m then keysOf m else keysOf m ++ [k] := by
  induction m with
  | nil => simp [KFCScrapper.upsert, keysOf]
  | cons p rest ih =>
      cases p with
      | mk k' v' =>
          by_cases hk : k' = k
          · subst hk
            simp [KFCScrapper.upsert, keysOf]
          · simp only [KFCScrapper.upsert, if_neg hk]
            simp only [keysOf, List.map_cons] at ih ⊢
            rw [ih]
            by_cases hm : k ∈ List.map Prod.fst rest
            · rw [if_pos hm, if_pos (by simp [hm])]
            · rw [if_neg hm, if_neg (by simp [hm, Ne.symm hk]), List.cons_append]

theorem KFCScrapper.fold_keys (l : List (String × String)) :
    ∀ m : List (String × String), (keysOf m).Nodup →
    (keysOf (List.foldl (fun m p => KFCScrapper.upsert m p.1 p.2) m l)).Nodup ∧
    (keysOf (List.foldl (fun m p => KFCScrapper.upsert m p.1 p.2) m l)).toFinset =
      (keysOf m).toFinset ∪ (l.map Prod.fst).toFinset := by
  induction l with
  | nil => intro m hm; simp [hm]
  | cons p rest ih =>
      intro m hm
      simp only [List.foldl_cons]
      have hk := KFCScrapper.upsert_keys m p.1 p.2
      by_cases hmem : p.1 ∈ keysOf m
      · have hkeys : keysOf (KFCScrapper.upsert m p.1 p.2) = keysOf m := by
          rw [hk, if_pos hmem]
        obtain ⟨h1, h2⟩ := ih (KFCScrapper.upsert m p.1 p.2) (by rw [hkeys]; exact hm)
        refine ⟨h1, ?_⟩
        rw [h2, hkeys]
        simp only [List.map_cons, List.toFinset_cons]
        rw [Finset.union_insert,
          Finset.insert_eq_self.mpr
            (Finset.mem_union_left _ (List.mem_toFinset.mpr hmem))]
      · have hkeys : keysOf (KFCScrapper.upsert m p.1 p.2) = keysOf m ++ [p.1] := by
          rw [hk, if_neg hmem]
        have hnodup' : (keysOf (KFCScrapper.upsert m p.1 p.2)).Nodup := by
          rw [hkeys]
          simp [List.nodup_append, hm, hmem]
        obtain ⟨h1, h2⟩ := ih _ hnodup'
        refine ⟨h1, ?_⟩
        rw [h2, hkeys]
        simp only [List.toFinset_append, List.map_cons, List.toFinset_cons,
          List.toFinset_nil, Finset.insert_eq]
        rw [Finset.union_assoc]
        simp

theorem KFCScrapper.zip_map_fst {α β : Type} (a : List α) :
    ∀ b : List β, (a.zip b).map Prod.fst = a.take b.length := by
  induction a with
  | nil => intro b; simp
  | cons x xs ih =>
      intro b
      cases b with
      | nil => simp
      | cons y ys => simp [List.zip_cons_cons, ih ys]

/-- Claim C10 (confirmed): on a non-empty input the compressor returns
exactly one entry per distinct rendered open-close time string among the
first seven input entries; entries past the seventh are ignored (the zip
with the 7-day week truncates them). -/
theorem c10_length_distinct (xs : List DayInterval) (hne : xs ≠ []) :
    (KFCScrapper._get_time_str xs).length =
      ((xs.take 7).map KFCScrapper.timeStrOf).toFinset.card := by
  rw [KFCScrapper._get_time_str, KFCScrapper.walk_length, KFCScrapper.days_time_map]
  obtain ⟨hnd, hfin⟩ :=
    KFCScrapper.fold_keys ((xs.map KFCScrapper.timeStrOf).zip KFCScrapper.days) []
      (by simp [keysOf])
  have hlk : ∀ m : List (String × String), m.length = (keysOf m).length := by
    intro m; simp [keysOf]
  rw [hlk, ← List.toFinset_card_of_nodup hnd, hfin]
  simp only [keysOf, List.map_nil, List.toFinset_nil, Finset.empty_union]
  rw [KFCScrapper.zip_map_fst, show KFCScrapper.days.length = 7 from rfl, ← List.map_take]

/-- Claim C10 witness: a three-entry input whose first and third entries
share a time string compresses to two entries. -/
theorem c10_length_distinct_witness :
    (KFCScrapper._get_time_str
      [⟨"пн", "08:00", "09:00"⟩, ⟨"вт", "10:00", "11:00"⟩, ⟨"ср", "08:00", "09:00"⟩]).length =
    (([⟨"пн", "08:00", "09:00"⟩, ⟨"вт", "10:00", "11:00"⟩,
       (⟨"ср", "08:00", "09:00"⟩ : DayInterval)].take 7).map
        KFCScrapper.timeStrOf).toFinset.card :=
  c10_length_distinct
    [⟨"пн", "08:00", "09:00"⟩, ⟨"вт", "10:00", "11:00"⟩, ⟨"ср", "08:00", "09:00"⟩]
    (by simp)

/-! ### Adapter normalization (clear_data) embedding -/

/-- An opaque JSON-ish value carried through normalization: a string, or a
list (used for coordinate pairs and working-hours arrays). -/
inductive Value where
  | s (str : String)
  | l (xs : List Value)

/-- The leaves of one KFC `searchResults` item that `clear_data` extracts:
the chained `.get` navigation (`storePublic.contacts...`) is adapter glue
and is modelled as pre-extracted fields. -/
structure KFCRaw where
  streetAddress : Value
  coordinates : Value
  name : Value
  phoneNumber : Value
  regularDaily : List DayInterval

/-- `KFCScrapper.clear_data`: one five-key record per raw item, the dict
literal's keys in source order; working hours go through the compressor. -/
def KFCScrapper.clear_data (kfc_dict : List KFCRaw) : List (List (String × Value)) :=
  kfc_dict.map fun kfc =>
    [("address", kfc.streetAddress),
     ("latlon", kfc.coordinates),
     ("name", kfc.name),
     ("phones", kfc.phoneNumber),
     ("working_hours", Value.l ((KFCScrapper._get_working_hours kfc.regularDaily).map Value.s))]

/-- The fields of one Ziko pharmacy entry that `clear_data` reads. -/
structure ZikoRaw where
  address : Value
  lat : Value
  lng : Value
  title : Value
  mp_pharmacy_hours : String

/-- `ZikoScrapper.clear_data`: five keys per record; phones is a fixed
sentinel string and `<br>` tags are replaced by spaces in the hours. -/
def ZikoScrapper.clear_data (ziko_raw_data : List ZikoRaw) : List (List (String × Value)) :=
  ziko_raw_data.map fun data =>
    [("address", data.address),
     ("latlon", Value.l [data.lat, data.lng]),
     ("name", data.title),
     ("phones", Value.s "This information is not found in the API"),
     ("working_hours", Value.s (data.mp_pharmacy_hours.replace "<br>" " "))]

/-- One `div.shop` element of the Monomah page: the nested text of its
`p.name` and `p.phone` children. -/
structure MonomahArticle where
  nameText : String
  phoneText : String

/-- Python `str.index`: position of the first occurrence of a character,
or failure (ValueError) when the character is absent. -/
def MonomahScrapper.idxOf : List Char → Char → Option Nat
  | [], _ => none
  | a :: rest, c => if a = c then some 0 else (MonomahScrapper.idxOf rest c).map (· + 1)

/-- The slice `shop_adress[shop_adress.index('(') + 1 : shop_adress.index(')')]`
of `_get_location_map`; `none` models the ValueError raised by `index`
when either parenthesis is absent. -/
def MonomahScrapper.parenSlice (s : String) : Option String :=
  match MonomahScrapper.idxOf s.data '(', MonomahScrapper.idxOf s.data ')' with
  | some i, some j => some (String.mk ((s.data.drop (i + 1)).take (j - (i + 1))))
  | _, _ => none

/-- `MonomahScrapper._get_location_map`: build the geocoder query from the
text between parentheses (with "ТРЦ" stripped and the city appended), then
look it up.  Geopy returning no place makes `location.latitude` raise
AttributeError; a missing parenthesis makes `index` raise ValueError; both
are caught and mapped to the sentinel "Not info". -/
def MonomahScrapper._get_location_map (geocode : String → Option (Value × Value))
    (shop_adress : String) (city : String) : Value :=
  match MonomahScrapper.parenSlice shop_adress with
  | some shop_name0 =>
      match geocode ((shop_name0.replace "ТРЦ" "") ++ ", " ++ city) with
      | some location => Value.l [location.1, location.2]
      | none => Value.s "Not info"
  | none => Value.s "Not info"

/-- `MonomahScrapper.clear_data`: NOTE the source dict literal has only
four keys — `working_hours` is absent. -/
def MonomahScrapper.clear_data (geocode : String → Option (Value × Value))
    (monomah_raw_data : List MonomahArticle) : List (List (String × Value)) :=
  monomah_raw_data.map fun article =>
    [("address", Value.s article.nameText),
     ("latlon", MonomahScrapper._get_location_map geocode article.nameText "Минск"),
     ("name", Value.s "Мономах"),
     ("phones", Value.s article.phoneText)]

/-! ### Claims C3 and C7 -/

/-- Python dict lookup `d[k]` on the modelled association list. -/
def lookupKey {α : Type} (k : String) : List (String × α) → Option α
  | [] => none
  | (k', v) :: rest => if k' = k then some v else lookupKey k rest

theorem map_keys_const {α : Type} (l : List α) (f : α → List (String × Value)) (b : List String)
    (hf : ∀ a, keysOf (f a) = b) : (l.map f).map keysOf = List.replicate l.length b := by
  induction l with
  | nil => rfl
  | cons x xs ih => simp only [List.map_cons, List.length_cons, List.replicate_succ, hf, ih]

/-- Claim C3 counterexample: a record normalized by the Monomah (HTML)
adapter carries only four keys — `working_hours` is missing, not set to a
sentinel. -/
theorem c3_counterexample :
    keysOf ((MonomahScrapper.clear_data (fun _ => none)
        [⟨"Мономах (Галерея)", "+375 17"⟩]).headD []) =
      ["address", "latlon", "name", "phones"] ∧
    keysOf ((MonomahScrapper.clear_data (fun _ => none)
        [⟨"Мономах (Галерея)", "+375 17"⟩]).headD []) ≠
      ["address", "latlon", "name", "phones", "working_hours"] :=
  ⟨rfl, by decide⟩

/-- Claim C3 (amended): every record produced by the KFC and Ziko
adapters has exactly the five keys address, latlon, name, phones,
working_hours in that order; every record produced by the Monomah (HTML)
adapter has exactly the four keys address, latlon, name, phones —
`working_hours` is omitted there, not represented by a sentinel. -/
theorem c3_record_keys (ks : List KFCRaw) (zs : List ZikoRaw)
    (geocode : String → Option (Value × Value)) (arts : List MonomahArticle) :
    (KFCScrapper.clear_data ks).map keysOf =
      List.replicate ks.length ["address", "latlon", "name", "phones", "working_hours"] ∧
    (ZikoScrapper.clear_data zs).map keysOf =
      List.replicate zs.length ["address", "latlon", "name", "phones", "working_hours"] ∧
    (MonomahScrapper.clear_data geocode arts).map keysOf =
      List.replicate arts.length ["address", "latlon", "name", "phones"] :=
  ⟨map_keys_const ks _ _ (fun _ => rfl),
   map_keys_const zs _ _ (fun _ => rfl),
   map_keys_const arts _ _ (fun _ => rfl)⟩

/-- Modelled from the spec (section 7): the two recoverable geocoding
failure modes for one item — malformed name (`index` finds no parenthesis
and raises ValueError) or place not found (the geocoder resolves to
nothing, so `location.latitude` raises AttributeError). -/
def MonomahScrapper.geocodeFailure (geocode : String → Option (Value × Value))
    (shop_adress : String) : Prop :=
  MonomahScrapper.parenSlice shop_adress = none ∨
  ∃ shop_name0, MonomahScrapper.parenSlice shop_adress = some shop_name0 ∧
    geocode ((shop_name0.replace "ТРЦ" "") ++ ", " ++ "Минск") = none

/-- Claim C7 (confirmed): normalization of a Monomah batch is an
item-by-item map — each record depends only on its own article, so
sibling items are unaffected by any item's geocoding outcome — and an
item whose geocoding fails (either failure mode) gets the coordinates
sentinel "Not info"; `_get_location_map` is total, so the failure never
escapes `clear_data` into the runner's error handling. -/
theorem c7_geocode_fallback (geocode : String → Option (Value × Value))
    (arts : List MonomahArticle) (a : MonomahArticle) :
    MonomahScrapper.clear_data geocode arts =
      arts.map (fun x => (MonomahScrapper.clear_data geocode [x]).headD []) ∧
    (MonomahScrapper.geocodeFailure geocode a.nameText →
      lookupKey "latlon" ((MonomahScrapper.clear_data geocode [a]).headD []) =
        some (Value.s "Not info")) := by
  constructor
  · simp [MonomahScrapper.clear_data]
  · intro hfail
    rw [show (MonomahScrapper.clear_data geocode [a]).headD [] =
      [("address", Value.s a.nameText),
       ("latlon", MonomahScrapper._get_location_map geocode a.nameText "Минск"),
       ("name", Value.s "Мономах"),
       ("phones", Value.s a.phoneText)] from rfl]
    rcases hfail with h | ⟨s0, h1, h2⟩
    · simp only [MonomahScrapper._get_location_map, h, lookupKey]
      rfl
    · simp only [MonomahScrapper._get_location_map, h1, h2, lookupKey]
      rfl

/-- Claim C7 witness: with a geocoder that resolves nothing, the one-item
batch gets the "Not info" coordinates sentinel, and the batch map
structure holds. -/
theorem c7_geocode_fallback_witness :
    MonomahScrapper.clear_data (fun _ => none) [⟨"Мономах (ТРЦ Галерея)", "+375 17"⟩] =
      [(⟨"Мономах (ТРЦ Галерея)", "+375 17"⟩ : MonomahArticle)].map
        (fun x => (MonomahScrapper.clear_data (fun _ => none) [x]).headD []) ∧
    lookupKey "latlon" ((MonomahScrapper.clear_data (fun _ => none)
        [(⟨"Мономах (ТРЦ Галерея)", "+375 17"⟩ : MonomahArticle)]).headD []) =
      some (Value.s "Not info") := by
  obtain ⟨h1, h2⟩ := c7_geocode_fallback (fun _ => none)
    [⟨"Мономах (ТРЦ Галерея)", "+375 17"⟩] ⟨"Мономах (ТРЦ Галерея)", "+375 17"⟩
  exact ⟨h1, h2 (Or.inr ⟨"ТРЦ Галерея", rfl, rfl⟩)⟩

/-! ### Pipeline runner (ScrapperFacade.parse) embedding -/

/-- The concrete exception classes named by the except clauses of `parse`,
plus `other` for anything outside the taxonomy. -/
inductive ExcKind where
  | newConnectionError
  | maxRetryError
  | connectionError
  | missingSchema
  | typeError
  | fileNotFoundError
  | other
deriving DecidableEq, Repr

/-- A raised Python exception: its class and its message. -/
structure Exc where
  kind : ExcKind
  msg : String
deriving DecidableEq, Repr

namespace ScrapperFacade

/-- Whether one of the six except clauses of `parse` matches the exception. -/
def caught (k : ExcKind) : Bool :=
  match k with
  | .newConnectionError => true
  | .maxRetryError => true
  | .connectionError => true
  | .missingSchema => true
  | .typeError => true
  | .fileNotFoundError => true
  | .other => false

/-- One concrete scrapper: the three overridable stages plus the fault,
if any, that the file open in `save_data` would raise for its path. -/
structure Adapter (Page Raw Data : Type) where
  get_page : Except Exc Page
  get_raw_data : Page → Except Exc Raw
  clear_data : Raw → Except Exc Data
  save_exc : Data → Option Exc

/-- What `parse` does with a raised exception: a taxonomy exception is
caught, `result` is assigned and then dropped, and the function falls off
its end returning Python `None` (modelled `Except.ok none`); any other
exception propagates to the caller (modelled `Except.error`). -/
def handle (Data : Type) (e : Exc) : Except Exc (Option Data) :=
  if caught e.kind then Except.ok none else Except.error e

/-- `ScrapperFacade.parse`, instrumented with the output-file state: the
first component is the value returned to the caller (`Except.ok (some
data)` for the success dict, `Except.ok none` for the fallen-through
`None`, `Except.error` for an uncaught exception); the second is the
output file contents after the run. -/
def parse {Page Raw Data : Type} (a : Adapter Page Raw Data) (file : Option Data) :
    Except Exc (Option Data) × Option Data :=
  match a.get_page with
  | .error e => (handle Data e, file)
  | .ok page =>
    match a.get_raw_data page with
    | .error e => (handle Data e, file)
    | .ok raw_data =>
      match a.clear_data raw_data with
      | .error e => (handle Data e, file)
      | .ok data =>
        match a.save_exc data with
        | some e => (handle Data e, file)
        | none => (Except.ok (some data), some data)

end ScrapperFacade

/-! ### Claims C1 and C8 -/

/-- An adapter whose fetch raises
`requests.exceptions.ConnectionError` — one of the four taxonomy kinds. -/
def connFailAdapter : ScrapperFacade.Adapter String String String where
  get_page := Except.error ⟨ExcKind.connectionError, "Failed to establish a new connection"⟩
  get_raw_data := fun p => Except.ok p
  clear_data := fun r => Except.ok r
  save_exc := fun _ => none

/-- Claim C1 failing run: when the fetch raises a taxonomy fault, `parse`
does catch it (the call does not end in a raised fault), but it returns
Python `None` — the `result = ...` error dict assigned in the except
clause is never returned — instead of the claimed ok=false
PipelineResult; the output file is also untouched. -/
theorem c1_parse_drops_error_result :
    ScrapperFacade.parse connFailAdapter none =
      (Except.ok none, none) := rfl

/-- An adapter whose fetch raises `urllib3.exceptions.MaxRetryError`, a
connectivity-kind fault. -/
def retryFailAdapter : ScrapperFacade.Adapter String String String where
  get_page := Except.error ⟨ExcKind.maxRetryError, "Max retries exceeded with url"⟩
  get_raw_data := fun p => Except.ok p
  clear_data := fun r => Except.ok r
  save_exc := fun _ => none

/-- Claim C8 (confirmed): whenever `get_page` raises a connectivity
fault (NewConnectionError, MaxRetryError or ConnectionError), `parse`
stops before `save_data`; the output file is neither created nor
overwritten — the file state after the run is exactly the state before
it. -/
theorem c8_no_write_on_fetch_failure {Page Raw Data : Type}
    (a : ScrapperFacade.Adapter Page Raw Data) (file : Option Data) (e : Exc)
    (hfetch : a.get_page = Except.error e)
    (hconn : e.kind = ExcKind.newConnectionError ∨ e.kind = ExcKind.maxRetryError ∨
      e.kind = ExcKind.connectionError) :
    (ScrapperFacade.parse a file).2 = file := by
  rw [ScrapperFacade.parse, hfetch]

/-- Claim C8 witness: a run whose fetch hits MaxRetryError leaves the
pre-existing output file exactly as it was. -/
theorem c8_no_write_on_fetch_failure_witness :
    (ScrapperFacade.parse retryFailAdapter (some "previous contents")).2 =
      some "previous contents" :=
  c8_no_write_on_fetch_failure retryFailAdapter (some "previous contents")
    ⟨ExcKind.maxRetryError, "Max retries exceeded with url"⟩ rfl (Or.inr (Or.inl rfl))
